import Mathlib

/-!
Shallow embedding of the upload file handler (app/utils/file_handler.py).

Modelling conventions:
* Python strings are modelled as `List Char` (a Lean `Char` is one Unicode
  scalar value, matching a one-character Python `str`).  String literals are
  written as `"...".data`.
* `unicodedata.normalize("NFC", s)` is an external library call; it is taken
  as a function parameter `nfc : List Char → List Char` of the definitions
  that use it.  Facts guaranteed by the Unicode standard (NFC is idempotent;
  an NFC string stays NFC when characters are replaced by an underscore,
  which composes with nothing) appear as explicit hypotheses where a theorem
  needs them.
* The `isinstance(filename, bytes)` branch of `normalize_filename` is not
  modelled: every call site in the module passes a `str`.
* `str.lower` is modelled on its ASCII fragment (the allow-listed extensions
  are pure ASCII).
* The filesystem is modelled by `FS`: the finite list of paths for which
  `os.path.exists` answers true, and the list of directories for which
  `os.access(_, os.W_OK)` answers true.  `os.makedirs(p, exist_ok=True)` is
  modelled as total, following the spec's collaborator contract that the
  group directory is "pre-existing/creatable".
* Fallible I/O primitives used by `save_uploaded_file`, `cleanup_file` and
  `get_file_stats` are modelled by small environments of boolean outcomes;
  a `false` outcome stands for the corresponding OS call raising.
-/

/-- Upload root directory name, `UPLOAD_ROOT = "uploads"`. -/
def UPLOAD_ROOT : List Char := "uploads".data

/-- The characters removed by `normalize_filename`
(the regex character class in the source). -/
def restrictedChars : List Char := ['\\', '/', '*', '?', ':', '"', '<', '>', '|']

/-- One character of the substitution performed by the regex in
`normalize_filename`. -/
def sanitizeChar (c : Char) : Char := if restrictedChars.contains c then '_' else c

/-- The regex substitution of `normalize_filename`. -/
def sanitize (l : List Char) : List Char := l.map sanitizeChar

/-- `normalize_filename` on a `str` argument: NFC-normalize, then replace
every restricted character by an underscore. -/
def normalize_filename (nfc : List Char → List Char) (filename : List Char) : List Char :=
  sanitize (nfc filename)

/-- ASCII fragment of Python `str.lower`, characterwise. -/
def lowerChar (c : Char) : Char :=
  if 'A' ≤ c ∧ c ≤ 'Z' then Char.ofNat (c.toNat + 32) else c

/-- Python `str.lower` on a string (ASCII fragment). -/
def pyLower (l : List Char) : List Char := l.map lowerChar

/-- `str.rfind` for a single character: the index of its last occurrence. -/
def lastIndexOf (c : Char) : List Char → Option Nat
  | [] => none
  | x :: xs =>
    match lastIndexOf c xs with
    | some i => some (i + 1)
    | none => if x = c then some 0 else none

/-- `os.path.splitext` (posix variant): split at the last dot, provided the
dot lies after the last path separator and the base name does not consist of
dots only up to that position. -/
def splitext (p : List Char) : List Char × List Char :=
  match lastIndexOf '.' p with
  | none => (p, [])
  | some d =>
    let f : Nat :=
      match lastIndexOf '/' p with
      | none => 0
      | some s => s + 1
    if f ≤ d then
      if (List.range' f (d - f)).any (fun i => decide (p.getD i '.' ≠ '.')) then
        (p.take d, p.drop d)
      else (p, [])
    else (p, [])

/-- `ALLOWED_EXTENSIONS`, in source-literal order (Python iterates the set
in an implementation-defined order; only membership matters). -/
def ALLOWED_EXTENSIONS : List (List Char) :=
  [".pdf".data, ".doc".data, ".docx".data, ".txt".data, ".rtf".data, ".md".data]

/-- The FastAPI `UploadFile` object, restricted to the field this module
reads and writes.  `filename` is `Option`al: FastAPI reports a missing
filename as `None`. -/
structure UploadFile where
  filename : Option (List Char)

/-- Python truthiness of the `filename` field (`not file.filename` is true
for both `None` and the empty string). -/
def truthy : Option (List Char) → Bool
  | some (_ :: _) => true
  | _ => false

/-- `', '.join` over a list of strings. -/
def joinComma : List (List Char) → List Char
  | [] => []
  | [x] => x
  | x :: y :: xs => x ++ ", ".data ++ joinComma (y :: xs)

/-- Error message for an empty/absent filename. -/
def emptyFilenameMsg : List Char := "文件名不能为空".data

/-- Error message for a disallowed extension (the f-string in the source,
with the set joined in literal order). -/
def unsupportedTypeMsg : List Char :=
  "不支持的文件类型。允许的类型: ".data ++ joinComma ALLOWED_EXTENSIONS

/-- `validate_upload_file`.  Returns the `(ok, message)` pair together with
the `UploadFile` as it stands after the call, because the function mutates
`file.filename` in place. -/
def validate_upload_file (nfc : List Char → List Char) (file : UploadFile) :
    (Bool × List Char) × UploadFile :=
  match file.filename with
  | none => ((false, emptyFilenameMsg), file)
  | some f =>
    if f = [] then ((false, emptyFilenameMsg), file)
    else
      let nf := normalize_filename nfc f
      let file' : UploadFile := { filename := some nf }
      let ext := (splitext (pyLower nf)).2
      if ALLOWED_EXTENSIONS.contains ext then ((true, []), file')
      else ((false, unsupportedTypeMsg), file')

/-- `os.path.join` for two components (posix variant). -/
def pjoin (a b : List Char) : List Char :=
  if b.head? = some '/' then b
  else if a = [] ∨ a.getLast? = some '/' then a ++ b
  else a ++ '/' :: b

/-- Snapshot of the filesystem facts the module queries: the paths for which
`os.path.exists` answers true, and the directories for which
`os.access(_, os.W_OK)` answers true. -/
structure FS where
  files : List (List Char)
  writableDirs : List (List Char)

/-- `os.path.exists`. -/
def FS.pathExists (fs : FS) (p : List Char) : Bool := fs.files.contains p

/-- `os.access(_, os.W_OK)`. -/
def FS.access_W (fs : FS) (p : List Char) : Bool := fs.writableDirs.contains p

/-- `os.makedirs(p, exist_ok=True)`: afterwards `p` exists.  Modelled as
total here; the real call in `generate_file_path` can raise an uncaught
`OSError` when the directory is absent and uncreatable, which
`generate_file_path_io` models (`generate_file_path_io_agrees` shows the
two resolvers coincide whenever creation succeeds). -/
def FS.makedirs (fs : FS) (p : List Char) : FS :=
  if fs.files.contains p then fs else { fs with files := p :: fs.files }

/-- Digit-emitting recursion for `natToChars`; the first argument is fuel
(any fuel at least the number being printed suffices). -/
def natToCharsAux : Nat → Nat → List Char
  | 0, _ => []
  | fuel + 1, n =>
    if n = 0 then [] else natToCharsAux fuel (n / 10) ++ [Nat.digitChar (n % 10)]

/-- Decimal representation of a natural number, as produced by the Python
f-string `f"{counter}"`. -/
def natToChars (n : Nat) : List Char :=
  if n = 0 then ['0'] else natToCharsAux n n

/-- Reads a decimal digit character back to its value. -/
def charDigitVal (c : Char) : Nat := c.toNat - 48

/-- Parses a decimal string (left inverse of `natToChars`). -/
def charsToNat (cs : List Char) : Nat :=
  Nat.ofDigits 10 ((cs.map charDigitVal).reverse)

/-- `fastapi.HTTPException`, restricted to the fields the source sets. -/
structure HTTPException where
  status_code : Nat
  detail : List Char
deriving DecidableEq

/-- The `while os.path.exists(full_path)` loop of `generate_file_path`.
`fuel` bounds the number of iterations; `generate_file_path` passes one more
than the number of existing paths, which is proved sufficient below
(`collisionLoop` then never answers `none`). -/
def collisionLoop (fs : FS) (group_path group_dir base_name ext : List Char) :
    Nat → Nat → List Char → List Char → Option (List Char × List Char)
  | fuel, counter, full_path, relative_path =>
    if fs.pathExists full_path then
      match fuel with
      | 0 => none
      | fuel' + 1 =>
        let new_filename := base_name ++ '_' :: natToChars counter ++ ext
        collisionLoop fs group_path group_dir base_name ext fuel' (counter + 1)
          (pjoin group_path new_filename) (pjoin group_dir new_filename)
    else
      some (full_path, relative_path)

/-- `generate_file_path`: normalize the name, ensure the group directory
exists, fail with HTTP 500 if it is not writable, then find the first
collision-free candidate path.  Returns the `(full_path, relative_path)`
pair. -/
def generate_file_path (nfc : List Char → List Char) (fs0 : FS)
    (group_dir filename0 : List Char) :
    Except HTTPException (Option (List Char × List Char)) :=
  let filename := normalize_filename nfc filename0
  let group_path := pjoin UPLOAD_ROOT group_dir
  let fs := fs0.makedirs group_path
  if fs.access_W group_path = false then
    .error { status_code := 500, detail := "存储目录无写入权限".data }
  else
    let full_path := pjoin group_path filename
    let relative_path := pjoin group_dir filename
    let base_name := (splitext filename).1
    let ext := (splitext filename).2
    .ok (collisionLoop fs group_path group_dir base_name ext
      (fs.files.length + 1) 1 full_path relative_path)

/-- The candidate names tried by `generate_file_path`, in order: the
normalized name itself, then `base_k.ext` for `k = 1, 2, ...`. -/
def candName (n : List Char) (k : Nat) : List Char :=
  if k = 0 then n else (splitext n).1 ++ '_' :: natToChars k ++ (splitext n).2

/-- A fault leaving `generate_file_path`: either the `HTTPException` the
function raises itself, or an `OSError` escaping from the `os.makedirs`
call, which sits outside any try/except. -/
inductive PyFault where
  | http (e : HTTPException)
  | oserror
deriving DecidableEq

/-- Outcome of the `os.makedirs` call in `generate_file_path` when the
group directory has to be created (`false` = raises `OSError`; with
`exist_ok=True` the call cannot fail on an already existing directory). -/
structure DirEnv where
  makedirsOk : Bool

/-- `generate_file_path` with the fallible `os.makedirs` modelled: when the
group directory does not exist and cannot be created, the uncaught
`OSError` crosses the function boundary.  `generate_file_path` above is the
restriction of this function to a succeeding `os.makedirs`
(`generate_file_path_io_agrees`). -/
def generate_file_path_io (nfc : List Char → List Char) (env : DirEnv) (fs0 : FS)
    (group_dir filename0 : List Char) :
    Except PyFault (Option (List Char × List Char)) :=
  let filename := normalize_filename nfc filename0
  let group_path := pjoin UPLOAD_ROOT group_dir
  if fs0.pathExists group_path = false ∧ env.makedirsOk = false then
    .error .oserror
  else
    let fs := fs0.makedirs group_path
    if fs.access_W group_path = false then
      .error (.http { status_code := 500, detail := "存储目录无写入权限".data })
    else
      let full_path := pjoin group_path filename
      let relative_path := pjoin group_dir filename
      let base_name := (splitext filename).1
      let ext := (splitext filename).2
      .ok (collisionLoop fs group_path group_dir base_name ext
        (fs.files.length + 1) 1 full_path relative_path)

/-- The upload byte stream (`file.file`), reduced to what the module
observes: its read position and its length. -/
structure UploadStream where
  pos : Nat
  len : Nat

/-- Outcomes of the OS calls made by `save_uploaded_file`.  A `false` field
stands for the corresponding call raising an exception; `failPos` is the
stream position left behind by a `copyfileobj` that failed midway. -/
structure SaveEnv where
  makedirsOk : Bool
  openOk : Bool
  copyOk : Bool
  failPos : Nat

/-- `save_uploaded_file`: try makedirs, open, copyfileobj; any exception is
caught and turned into `False`; the `finally` block seeks the stream back to
position 0 on every path.  Returns the boolean result and the stream as the
caller sees it afterwards. -/
def save_uploaded_file (env : SaveEnv) (file : UploadStream) (_destination : List Char) :
    Bool × UploadStream :=
  let tryResult : Bool × UploadStream :=
    if env.makedirsOk = false then (false, file)
    else if env.openOk = false then (false, file)
    else if env.copyOk = false then (false, { file with pos := env.failPos })
    else (true, { file with pos := file.len })
  (tryResult.1, { tryResult.2 with pos := 0 })

/-- Outcome of `os.remove` for `cleanup_file` (`false` = raises). -/
structure RemoveEnv where
  removeOk : Bool

/-- `cleanup_file`: delete if present; a missing file counts as success; a
raising `os.remove` is caught and reported as `false`. -/
def cleanup_file (env : RemoveEnv) (fs : FS) (file_path : List Char) : Bool × FS :=
  if fs.pathExists file_path then
    if env.removeOk then (true, { fs with files := fs.files.erase file_path })
    else (false, fs)
  else (true, fs)

/-- `os.stat` result fields read by `get_file_stats`. -/
structure FileStats where
  size : Nat
  created : Nat
  modified : Nat
  accessed : Nat
deriving DecidableEq

/-- Outcome of `os.stat` for `get_file_stats` (`false` = raises). -/
structure StatEnv where
  statOk : Bool

/-- `get_file_stats`: `none` when the path does not exist, and also when
`os.stat` raises (the exception is caught). -/
def get_file_stats (env : StatEnv) (fs : FS) (stats : List Char → FileStats)
    (file_path : List Char) : Option FileStats :=
  if fs.pathExists file_path = false then none
  else if env.statOk then some (stats file_path) else none

/-- UTF-8 encoding of one Unicode scalar value. -/
def utf8EncodeChar (c : Char) : List Nat :=
  let n := c.toNat
  if n < 128 then [n]
  else if n < 2048 then [192 + n / 64, 128 + n % 64]
  else if n < 65536 then [224 + n / 4096, 128 + (n / 64) % 64, 128 + n % 64]
  else [240 + n / 262144, 128 + (n / 4096) % 64, 128 + (n / 64) % 64, 128 + n % 64]

/-- `str.encode("utf-8")`: the UTF-8 byte sequence of a string. -/
def utf8Encode : List Char → List Nat
  | [] => []
  | c :: cs => utf8EncodeChar c ++ utf8Encode cs

/-- Is a byte a UTF-8 continuation byte? -/
def contByte (b : Nat) : Bool := 128 ≤ b && b < 192

/-- A UTF-8 decoder (used to state the round-trip property of the header
encoding).  It is permissive: it does not reject overlong forms or
surrogate code points, which is irrelevant for decoding genuine encoder
output. -/
def utf8Decode : List Nat → Option (List Char)
  | [] => some []
  | b :: rest =>
    if b < 128 then
      (utf8Decode rest).map (fun cs => Char.ofNat b :: cs)
    else if b < 192 then none
    else
      let cnt := if b < 224 then 1 else if b < 240 then 2 else 3
      let lead := if b < 224 then b - 192 else if b < 240 then b - 224 else b - 240
      if (rest.take cnt).length = cnt ∧ (rest.take cnt).all contByte = true then
        (utf8Decode (rest.drop cnt)).map
          (fun cs =>
            Char.ofNat ((rest.take cnt).foldl (fun acc x => acc * 64 + (x - 128)) lead) :: cs)
      else none
termination_by l => l.length
decreasing_by
  all_goals simp only [List.length_cons, List.length_drop]
  all_goals omega

/-- The characters `urllib.parse.quote` never escapes: `always_safe` plus
the default `safe='/'`. -/
def quoteSafeChars : List Char :=
  "ABCDEFGHIJKLMNOPQRSTUVWXYZabcdefghijklmnopqrstuvwxyz0123456789_.-~/".data

/-- Does `quote` leave the byte unescaped? -/
def quoteSafe (b : Nat) : Bool := b < 128 && quoteSafeChars.contains (Char.ofNat b)

/-- Upper-case hexadecimal digit, as in `quote`'s `%XX` escapes. -/
def hexDigitUpper (n : Nat) : Char :=
  if n < 10 then Char.ofNat (48 + n) else Char.ofNat (65 + (n - 10))

/-- Value of an upper-case hexadecimal digit. -/
def hexVal (c : Char) : Nat :=
  if 65 ≤ c.toNat then c.toNat - 65 + 10 else c.toNat - 48

/-- `quote` on a single byte. -/
def quoteByte (b : Nat) : List Char :=
  if quoteSafe b then [Char.ofNat b] else ['%', hexDigitUpper (b / 16), hexDigitUpper (b % 16)]

/-- `urllib.parse.quote` on a byte string (default `safe='/'`). -/
def pyQuote : List Nat → List Char
  | [] => []
  | b :: bs => quoteByte b ++ pyQuote bs

/-- Percent-decoding, the inverse direction of `quote` (used to state the
round-trip property). -/
def percentDecode : List Char → List Nat
  | [] => []
  | c :: rest =>
    if c = '%' then
      match rest with
      | h :: l :: rest2 => (hexVal h * 16 + hexVal l) :: percentDecode rest2
      | _ => []
    else c.toNat :: percentDecode rest

/-- `get_safe_filename_for_headers`: normalize, UTF-8 encode, percent-encode
and wrap as an RFC 5987 extended parameter value. -/
def get_safe_filename_for_headers (nfc : List Char → List Char) (filename : List Char) :
    List Char :=
  let f := normalize_filename nfc filename
  "filename*=UTF-8''".data ++ pyQuote (utf8Encode f)

/-! ### Helper lemmas -/

theorem sanitizeChar_idem (c : Char) : sanitizeChar (sanitizeChar c) = sanitizeChar c := by
  by_cases h : restrictedChars.contains c = true
  · simp only [sanitizeChar, if_pos h]; decide
  · simp only [sanitizeChar, if_neg h, if_neg h]

theorem sanitize_idem (l : List Char) : sanitize (sanitize l) = sanitize l := by
  simp only [sanitize, List.map_map]
  exact List.map_congr_left (fun a _ => sanitizeChar_idem a)

theorem msg_empty_ne_nil : emptyFilenameMsg ≠ [] := by decide

theorem msg_unsupported_ne_nil : unsupportedTypeMsg ≠ [] := by decide

/-! ### Claims about validation and normalization -/

/-- Claim C1: `validate_upload_file` answers `ok = true` exactly when the
filename is non-empty (truthy) and the extension of the lower-cased
normalized filename is in the allow-list; a `true` answer carries the empty
message, and in every other case the answer is `false` with a non-empty
message. -/
theorem validate_upload_ok_iff (nfc : List Char → List Char) (file : UploadFile) :
    ((validate_upload_file nfc file).1.1 = true ↔
      truthy file.filename = true ∧
        ALLOWED_EXTENSIONS.contains
          (splitext (pyLower (normalize_filename nfc (file.filename.getD [])))).2 = true) ∧
    ((validate_upload_file nfc file).1.1 = true → (validate_upload_file nfc file).1.2 = []) ∧
    ((validate_upload_file nfc file).1.1 = false → (validate_upload_file nfc file).1.2 ≠ []) := by
  rcases file with ⟨fo⟩
  cases fo with
  | none =>
    exact ⟨⟨fun h => (nomatch h), fun hp => (nomatch hp.1)⟩,
      fun h => (nomatch h), fun _ => msg_empty_ne_nil⟩
  | some f =>
    cases f with
    | nil =>
      exact ⟨⟨fun h => (nomatch h), fun hp => (nomatch hp.1)⟩,
        fun h => (nomatch h), fun _ => msg_empty_ne_nil⟩
    | cons c cs =>
      simp only [Option.getD_some]
      have key : validate_upload_file nfc ⟨some (c :: cs)⟩ =
          (if ALLOWED_EXTENSIONS.contains
              (splitext (pyLower (normalize_filename nfc (c :: cs)))).2
           then ((true, ([] : List Char)), ⟨some (normalize_filename nfc (c :: cs))⟩)
           else ((false, unsupportedTypeMsg),
             ⟨some (normalize_filename nfc (c :: cs))⟩)) := rfl
      rw [key]
      by_cases h : ALLOWED_EXTENSIONS.contains
          (splitext (pyLower (normalize_filename nfc (c :: cs)))).2 = true
      · rw [if_pos h]
        exact ⟨⟨fun _ => ⟨rfl, h⟩, fun _ => rfl⟩, fun _ => rfl, fun hf => (nomatch hf)⟩
      · rw [if_neg h]
        exact ⟨⟨fun hp => (nomatch hp), fun hp => absurd hp.2 h⟩,
          fun hp => (nomatch hp), fun _ => msg_unsupported_ne_nil⟩

/-- Witness for C1: an allow-listed extension in mixed case is accepted; a
disallowed extension yields `ok ≠ true` with a non-empty message. -/
theorem validate_upload_ok_iff_witness :
    (validate_upload_file (fun s => s) ⟨some ("Report.PDF".data)⟩).1.1 = true ∧
    ¬ (validate_upload_file (fun s => s) ⟨some ("a.exe".data)⟩).1.1 = true ∧
    (validate_upload_file (fun s => s) ⟨some ("a.exe".data)⟩).1.2 ≠ [] :=
  ⟨(validate_upload_ok_iff (fun s => s) ⟨some ("Report.PDF".data)⟩).1.mpr
      ⟨by decide, by decide⟩,
   fun h => absurd
     ((validate_upload_ok_iff (fun s => s) ⟨some ("a.exe".data)⟩).1.mp h).2 (by decide),
   (validate_upload_ok_iff (fun s => s) ⟨some ("a.exe".data)⟩).2.2 (by decide)⟩

/-- Claim C3: the output of `normalize_filename` contains none of the
restricted characters, and each restricted character of the NFC-normalized
input is replaced, at its position, by an underscore. -/
theorem normalize_removes_restricted (nfc : List Char → List Char) (s : List Char) :
    (∀ c, c ∈ normalize_filename nfc s → restrictedChars.contains c = false) ∧
    (∀ (i : Nat) (c : Char), (nfc s)[i]? = some c → restrictedChars.contains c = true →
      (normalize_filename nfc s)[i]? = some '_') := by
  constructor
  · intro c hc
    simp only [normalize_filename, sanitize, List.mem_map] at hc
    obtain ⟨a, _, rfl⟩ := hc
    by_cases h : restrictedChars.contains a = true
    · simp only [sanitizeChar, if_pos h]; decide
    · simp only [sanitizeChar, if_neg h]
      simpa using h
  · intro i c hget hres
    have hc : sanitizeChar c = '_' := by unfold sanitizeChar; rw [if_pos hres]
    simp only [normalize_filename, sanitize]
    rw [List.getElem?_map, hget]
    simp [hc]

/-- Witness for C3 at the input `a/b`. -/
theorem normalize_removes_restricted_witness :
    restrictedChars.contains '_' = false ∧
    (normalize_filename (fun s => s) ("a/b".data))[1]? = some '_' :=
  ⟨(normalize_removes_restricted (fun s => s) ("a/b".data)).1 '_' (by decide),
   (normalize_removes_restricted (fun s => s) ("a/b".data)).2 1 '/' (by decide) (by decide)⟩

/-- Claim C6: `normalize_filename` is idempotent.  The two hypotheses are
the Unicode-standard facts the source relies on: NFC normalization is
idempotent, and a string in NFC form stays in NFC form when characters are
replaced by an underscore (which composes with nothing). -/
theorem normalize_idempotent (nfc : List Char → List Char)
    (h1 : ∀ s, nfc (nfc s) = nfc s)
    (h2 : ∀ s, nfc s = s → nfc (sanitize s) = sanitize s)
    (x : List Char) :
    normalize_filename nfc (normalize_filename nfc x) = normalize_filename nfc x := by
  unfold normalize_filename
  rw [h2 (nfc x) (h1 x), sanitize_idem]

/-- Witness for C6: the identity satisfies both hypotheses (as NFC does on
this ASCII input), at the input `a?.pdf`. -/
theorem normalize_idempotent_witness :
    normalize_filename (fun s => s) (normalize_filename (fun s => s) ("a?.pdf".data)) =
      normalize_filename (fun s => s) ("a?.pdf".data) :=
  normalize_idempotent (fun s => s) (fun _ => rfl) (fun _ _ => rfl) ("a?.pdf".data)

/-- Claim C5: the filename `../../etc/passwd` is rejected through the
extension rule: its normalized form `.._.._etc_passwd` has no restricted
characters and its extension is not in the allow-list.  The hypothesis
records that NFC normalization fixes this ASCII string. -/
theorem validate_rejects_traversal (nfc : List Char → List Char)
    (h : nfc ("../../etc/passwd".data) = "../../etc/passwd".data) :
    (validate_upload_file nfc ⟨some ("../../etc/passwd".data)⟩).1 =
      (false, unsupportedTypeMsg) ∧
    (∀ c, c ∈ normalize_filename nfc ("../../etc/passwd".data) →
      restrictedChars.contains c = false) ∧
    ALLOWED_EXTENSIONS.contains
      (splitext (pyLower (normalize_filename nfc ("../../etc/passwd".data)))).2 = false := by
  have hn : normalize_filename nfc ("../../etc/passwd".data) = ".._.._etc_passwd".data := by
    unfold normalize_filename
    rw [h]
    decide
  refine ⟨?_, ?_, ?_⟩
  · simp only [validate_upload_file, hn]
    decide
  · rw [hn]
    decide
  · rw [hn]; decide

/-- Witness for C5, with the identity standing for NFC on this ASCII
input. -/
theorem validate_rejects_traversal_witness :
    (validate_upload_file (fun s => s) ⟨some ("../../etc/passwd".data)⟩).1 =
      (false, unsupportedTypeMsg) ∧
    (∀ c, c ∈ normalize_filename (fun s => s) ("../../etc/passwd".data) →
      restrictedChars.contains c = false) ∧
    ALLOWED_EXTENSIONS.contains
      (splitext (pyLower (normalize_filename (fun s => s) ("../../etc/passwd".data)))).2
      = false :=
  validate_rejects_traversal (fun s => s) rfl

/-- Claim C4: `save_uploaded_file` reports every I/O failure as `False`
instead of propagating it, and on every execution path the `finally` block
has reset the stream position to the start. -/
theorem save_resets_stream (env : SaveEnv) (file : UploadStream) (destination : List Char) :
    (save_uploaded_file env file destination).2.pos = 0 ∧
    (save_uploaded_file env file destination).1 =
      (env.makedirsOk && env.openOk && env.copyOk) := by
  rcases env with ⟨m, o, cp, fp⟩
  cases m <;> cases o <;> cases cp <;> simp [save_uploaded_file]

/-- Claim C9: for every truthy filename, `validate_upload_file` overwrites
the request's filename with its normalized form — also when validation then
fails on the extension; only the empty/absent-filename failure leaves the
request unchanged. -/
theorem validate_mutates_filename (nfc : List Char → List Char) (file : UploadFile) :
    (truthy file.filename = true →
      (validate_upload_file nfc file).2 =
        ⟨some (normalize_filename nfc (file.filename.getD []))⟩) ∧
    (truthy file.filename = false → (validate_upload_file nfc file).2 = file) := by
  rcases file with ⟨fo⟩
  cases fo with
  | none => exact ⟨fun h => (by cases h), fun _ => rfl⟩
  | some f =>
    cases f with
    | nil => exact ⟨fun h => (by cases h), fun _ => rfl⟩
    | cons c cs =>
      refine ⟨fun _ => ?_, fun h => by cases h⟩
      simp only [validate_upload_file, Option.getD_some, if_neg (List.cons_ne_nil c cs)]
      split <;> rfl

/-- Witness for C9: the filename is rewritten to its normalized form even
though validation fails (disallowed extension). -/
theorem validate_mutates_filename_witness :
    (validate_upload_file (fun s => s) ⟨some ("b?d.exe".data)⟩).1.1 = false ∧
    (validate_upload_file (fun s => s) ⟨some ("b?d.exe".data)⟩).2 =
      ⟨some ("b_d.exe".data)⟩ :=
  ⟨by decide,
   (validate_mutates_filename (fun s => s) ⟨some ("b?d.exe".data)⟩).1 (by decide)⟩

/-! ### Round-trip of the RFC 5987 header encoding (claim C7) -/

theorem char_toNat_lt (c : Char) : c.toNat < 1114112 := by
  rcases c.valid with h | ⟨_, h2⟩
  · exact Nat.lt_trans h (by norm_num)
  · exact h2

theorem utf8EncodeChar_lt (c : Char) : ∀ b ∈ utf8EncodeChar c, b < 256 := by
  intro b hb
  have hc := char_toNat_lt c
  simp only [utf8EncodeChar] at hb
  split at hb
  · simp only [List.mem_singleton] at hb
    omega
  · split at hb
    · simp only [List.mem_cons, List.not_mem_nil, or_false] at hb
      rcases hb with rfl | rfl <;> omega
    · split at hb
      · simp only [List.mem_cons, List.not_mem_nil, or_false] at hb
        rcases hb with rfl | rfl | rfl <;> omega
      · simp only [List.mem_cons, List.not_mem_nil, or_false] at hb
        rcases hb with rfl | rfl | rfl | rfl <;> omega

theorem utf8Encode_lt (l : List Char) : ∀ b ∈ utf8Encode l, b < 256 := by
  induction l with
  | nil => intro b hb; cases hb
  | cons c cs ih =>
    intro b hb
    rcases List.mem_append.mp hb with h | h
    · exact utf8EncodeChar_lt c b h
    · exact ih b h

theorem percentDecode_cons_ne (c : Char) (rest : List Char) (hc : ¬ c = '%') :
    percentDecode (c :: rest) = c.toNat :: percentDecode rest := by
  rw [percentDecode.eq_def]
  dsimp only
  rw [if_neg hc]

theorem percentDecode_pct (h l : Char) (rest : List Char) :
    percentDecode ('%' :: h :: l :: rest) =
      (hexVal h * 16 + hexVal l) :: percentDecode rest := rfl

theorem hexVal_hexDigitUpper : ∀ x, x < 16 → hexVal (hexDigitUpper x) = x := by decide

theorem charOfNat_small : ∀ b, b < 128 → (Char.ofNat b).toNat = b := by decide

theorem charOfNat_ne_pct : ∀ b, b < 128 → quoteSafe b = true → ¬ Char.ofNat b = '%' := by
  decide

theorem quoteSafe_lt (b : Nat) (h : quoteSafe b = true) : b < 128 := by
  unfold quoteSafe at h
  simp only [Bool.and_eq_true, decide_eq_true_eq] at h
  exact h.1

theorem percentDecode_quote (bs : List Nat) (h : ∀ b ∈ bs, b < 256) :
    percentDecode (pyQuote bs) = bs := by
  induction bs with
  | nil => rfl
  | cons b bs ih =>
    have hb : b < 256 := h b (List.mem_cons_self b bs)
    have hrest := ih (fun x hx => h x (List.mem_cons_of_mem b hx))
    show percentDecode (quoteByte b ++ pyQuote bs) = b :: bs
    by_cases hq : quoteSafe b = true
    · have hqb : quoteByte b = [Char.ofNat b] := by unfold quoteByte; rw [if_pos hq]
      have hb128 := quoteSafe_lt b hq
      rw [hqb, List.cons_append, List.nil_append,
        percentDecode_cons_ne _ _ (charOfNat_ne_pct b hb128 hq),
        charOfNat_small b hb128, hrest]
    · have hqb : quoteByte b = ['%', hexDigitUpper (b / 16), hexDigitUpper (b % 16)] := by
        unfold quoteByte; rw [if_neg hq]
      rw [hqb, List.cons_append, List.cons_append, List.cons_append, List.nil_append,
        percentDecode_pct,
        hexVal_hexDigitUpper (b / 16) (by omega), hexVal_hexDigitUpper (b % 16) (by omega),
        hrest]
      congr 1
      omega

theorem utf8Decode1 (b : Nat) (rest : List Nat) (h : b < 128) :
    utf8Decode (b :: rest) = (utf8Decode rest).map (fun cs => Char.ofNat b :: cs) := by
  rw [utf8Decode.eq_def]
  dsimp only
  rw [if_pos h]

theorem utf8Decode2 (b b1 : Nat) (rest : List Nat)
    (h1 : ¬ b < 128) (h2 : ¬ b < 192) (h3 : b < 224) (hc : contByte b1 = true) :
    utf8Decode (b :: b1 :: rest) =
      (utf8Decode rest).map (fun cs => Char.ofNat ((b - 192) * 64 + (b1 - 128)) :: cs) := by
  rw [utf8Decode.eq_def]
  dsimp only
  rw [if_neg h1, if_neg h2, if_pos h3, if_pos h3]
  simp [hc]

theorem utf8Decode3 (b b1 b2 : Nat) (rest : List Nat)
    (h1 : ¬ b < 128) (h2 : ¬ b < 192) (h3 : ¬ b < 224) (h4 : b < 240)
    (hc1 : contByte b1 = true) (hc2 : contByte b2 = true) :
    utf8Decode (b :: b1 :: b2 :: rest) =
      (utf8Decode rest).map
        (fun cs => Char.ofNat (((b - 224) * 64 + (b1 - 128)) * 64 + (b2 - 128)) :: cs) := by
  rw [utf8Decode.eq_def]
  dsimp only
  rw [if_neg h1, if_neg h2, if_neg h3, if_neg h3, if_pos h4, if_pos h4]
  simp [hc1, hc2]

theorem utf8Decode4 (b b1 b2 b3 : Nat) (rest : List Nat)
    (h1 : ¬ b < 128) (h2 : ¬ b < 192) (h3 : ¬ b < 224) (h4 : ¬ b < 240)
    (hc1 : contByte b1 = true) (hc2 : contByte b2 = true) (hc3 : contByte b3 = true) :
    utf8Decode (b :: b1 :: b2 :: b3 :: rest) =
      (utf8Decode rest).map
        (fun cs => Char.ofNat
          ((((b - 240) * 64 + (b1 - 128)) * 64 + (b2 - 128)) * 64 + (b3 - 128)) :: cs) := by
  rw [utf8Decode.eq_def]
  dsimp only
  rw [if_neg h1, if_neg h2, if_neg h3, if_neg h3, if_neg h4, if_neg h4]
  simp [hc1, hc2, hc3]

theorem contByte_cont (x : Nat) (h : x < 64) : contByte (128 + x) = true := by
  unfold contByte
  simp only [Bool.and_eq_true, decide_eq_true_eq]
  omega

theorem utf8Decode_encode (l : List Char) : utf8Decode (utf8Encode l) = some l := by
  induction l with
  | nil =>
    rw [utf8Decode.eq_def]
    rfl
  | cons c cs ih =>
    have hcv := char_toNat_lt c
    show utf8Decode (utf8EncodeChar c ++ utf8Encode cs) = some (c :: cs)
    by_cases h1 : c.toNat < 128
    · have he : utf8EncodeChar c = [c.toNat] := by
        simp only [utf8EncodeChar, if_pos h1]
      rw [he, List.cons_append, List.nil_append, utf8Decode1 _ _ h1, ih]
      simp [Char.ofNat_toNat]
    · by_cases h2 : c.toNat < 2048
      · have he : utf8EncodeChar c = [192 + c.toNat / 64, 128 + c.toNat % 64] := by
          simp only [utf8EncodeChar, if_neg h1, if_pos h2]
        rw [he, List.cons_append, List.cons_append, List.nil_append,
          utf8Decode2 _ _ _ (by omega) (by omega) (by omega) (contByte_cont _ (by omega)), ih]
        have harith : (192 + c.toNat / 64 - 192) * 64 + (128 + c.toNat % 64 - 128)
            = c.toNat := by omega
        rw [harith]
        simp [Char.ofNat_toNat]
      · by_cases h3 : c.toNat < 65536
        · have he : utf8EncodeChar c =
              [224 + c.toNat / 4096, 128 + c.toNat / 64 % 64, 128 + c.toNat % 64] := by
            simp only [utf8EncodeChar, if_neg h1, if_neg h2, if_pos h3]
          rw [he, List.cons_append, List.cons_append, List.cons_append, List.nil_append,
            utf8Decode3 _ _ _ _ (by omega) (by omega) (by omega) (by omega)
              (contByte_cont _ (by omega)) (contByte_cont _ (by omega)), ih]
          have harith : ((224 + c.toNat / 4096 - 224) * 64
              + (128 + c.toNat / 64 % 64 - 128)) * 64 + (128 + c.toNat % 64 - 128)
              = c.toNat := by omega
          rw [harith]
          simp [Char.ofNat_toNat]
        · have he : utf8EncodeChar c =
              [240 + c.toNat / 262144, 128 + c.toNat / 4096 % 64,
               128 + c.toNat / 64 % 64, 128 + c.toNat % 64] := by
            simp only [utf8EncodeChar, if_neg h1, if_neg h2, if_neg h3]
          rw [he, List.cons_append, List.cons_append, List.cons_append, List.cons_append,
            List.nil_append,
            utf8Decode4 _ _ _ _ _ (by omega) (by omega) (by omega) (by omega)
              (contByte_cont _ (by omega)) (contByte_cont _ (by omega))
              (contByte_cont _ (by omega)), ih]
          have harith : (((240 + c.toNat / 262144 - 240) * 64
              + (128 + c.toNat / 4096 % 64 - 128)) * 64
              + (128 + c.toNat / 64 % 64 - 128)) * 64 + (128 + c.toNat % 64 - 128)
              = c.toNat := by omega
          rw [harith]
          simp [Char.ofNat_toNat]

/-- Claim C7: `get_safe_filename_for_headers` produces
`filename*=UTF-8''<percent-encoded bytes>` where the encoded part
percent-decodes to the UTF-8 bytes of the normalized filename and hence
UTF-8-decodes back to the normalized filename; concretely, `报告.pdf`
encodes to `filename*=UTF-8''%E6%8A%A5%E5%91%8A.pdf`. -/
theorem header_safe_name_roundtrip (nfc : List Char → List Char) (name : List Char) :
    get_safe_filename_for_headers nfc name =
      "filename*=UTF-8''".data ++ pyQuote (utf8Encode (normalize_filename nfc name)) ∧
    percentDecode (pyQuote (utf8Encode (normalize_filename nfc name))) =
      utf8Encode (normalize_filename nfc name) ∧
    utf8Decode (percentDecode (pyQuote (utf8Encode (normalize_filename nfc name)))) =
      some (normalize_filename nfc name) ∧
    get_safe_filename_for_headers (fun s => s) ("报告.pdf".data) =
      "filename*=UTF-8''%E6%8A%A5%E5%91%8A.pdf".data := by
  refine ⟨rfl, percentDecode_quote _ (utf8Encode_lt _), ?_, by decide⟩
  rw [percentDecode_quote _ (utf8Encode_lt _), utf8Decode_encode]

/-! ### Properties of the collision-avoidance path resolver -/

theorem natToCharsAux_zero (fuel : Nat) : natToCharsAux fuel 0 = [] := by
  cases fuel with
  | zero => rfl
  | succ f => simp [natToCharsAux]

theorem charsToNat_append (a : List Char) (d : Char) :
    charsToNat (a ++ [d]) = charDigitVal d + 10 * charsToNat a := by
  unfold charsToNat
  rw [List.map_append, List.reverse_append]
  simp [Nat.ofDigits_cons]

theorem cdv_digitChar : ∀ d, d < 10 → charDigitVal (Nat.digitChar d) = d := by decide

theorem natToCharsAux_parse (fuel : Nat) :
    ∀ n, 0 < n → n ≤ fuel → charsToNat (natToCharsAux fuel n) = n := by
  induction fuel with
  | zero => intro n h1 h2; omega
  | succ f ih =>
    intro n h1 h2
    have hne : ¬ n = 0 := by omega
    rw [natToCharsAux, if_neg hne, charsToNat_append, cdv_digitChar (n % 10) (by omega)]
    by_cases hq : n / 10 = 0
    · rw [hq, natToCharsAux_zero]
      have : charsToNat [] = 0 := rfl
      rw [this]
      omega
    · rw [ih (n / 10) (by omega) (by omega)]
      omega

theorem charsToNat_natToChars (n : Nat) : charsToNat (natToChars n) = n := by
  by_cases h : n = 0
  · subst h; decide
  · rw [natToChars, if_neg h]
    exact natToCharsAux_parse n n (by omega) (le_refl n)

theorem natToChars_injective : Function.Injective natToChars := by
  intro a b h
  have ha := charsToNat_natToChars a
  rw [h, charsToNat_natToChars] at ha
  omega

theorem splitext_append (p : List Char) : (splitext p).1 ++ (splitext p).2 = p := by
  unfold splitext
  cases lastIndexOf '.' p with
  | none => simp
  | some d =>
    dsimp only
    split
    · split
      · simp [List.take_append_drop]
      · simp
    · simp

theorem sanitize_no_slash (l : List Char) : ¬ '/' ∈ sanitize l := by
  intro h
  rcases List.mem_map.mp h with ⟨a, _, ha⟩
  unfold sanitizeChar at ha
  split at ha
  · cases ha
  · next hr =>
    rw [ha] at hr
    exact hr (by decide)

theorem head_ne_slash_of_not_mem (l : List Char) (h : ¬ '/' ∈ l) :
    ¬ l.head? = some '/' := by
  cases l with
  | nil => intro hc; cases hc
  | cons c cs =>
    intro hc
    simp only [List.head?_cons, Option.some.injEq] at hc
    exact h (hc ▸ List.mem_cons_self c cs)

theorem mem_splitext_fst (n : List Char) (c : Char) (h : c ∈ (splitext n).1) : c ∈ n :=
  splitext_append n ▸ List.mem_append_left _ h

theorem pjoin_of_head (a b : List Char) (hb : b.head? = some '/') : pjoin a b = b := by
  unfold pjoin
  rw [if_pos hb]

theorem pjoin_of_flat (a b : List Char) (hb : ¬ b.head? = some '/')
    (ha : a = [] ∨ a.getLast? = some '/') : pjoin a b = a ++ b := by
  unfold pjoin
  rw [if_neg hb, if_pos ha]

theorem pjoin_of_sep (a b : List Char) (hb : ¬ b.head? = some '/')
    (ha : ¬ (a = [] ∨ a.getLast? = some '/')) : pjoin a b = a ++ '/' :: b := by
  unfold pjoin
  rw [if_neg hb, if_neg ha]

theorem pjoin_right_inj (a s t : List Char) (hs : ¬ s.head? = some '/')
    (ht : ¬ t.head? = some '/') (h : pjoin a s = pjoin a t) : s = t := by
  by_cases ha : a = [] ∨ a.getLast? = some '/'
  · rw [pjoin_of_flat a s hs ha, pjoin_of_flat a t ht ha] at h
    exact List.append_cancel_left h
  · rw [pjoin_of_sep a s hs ha, pjoin_of_sep a t ht ha] at h
    have h2 := List.append_cancel_left h
    injection h2

theorem candName_zero (n : List Char) : candName n 0 = n := if_pos rfl

theorem candName_succ (n : List Char) (k : Nat) (hk : ¬ k = 0) :
    candName n k = (splitext n).1 ++ '_' :: natToChars k ++ (splitext n).2 := if_neg hk

theorem suffName_head_ne (n : List Char) (hn : ¬ '/' ∈ n) (k : Nat) :
    ¬ ((splitext n).1 ++ '_' :: natToChars k ++ (splitext n).2).head? = some '/' := by
  cases hb : (splitext n).1 with
  | nil => simp
  | cons c cs =>
    have hcmem : c ∈ (splitext n).1 := by rw [hb]; exact List.mem_cons_self c cs
    intro hc
    simp only [List.cons_append, List.head?_cons, Option.some.injEq] at hc
    exact hn (hc ▸ mem_splitext_fst n c hcmem)

theorem candName_head_ne (n : List Char) (hn : ¬ '/' ∈ n) (k : Nat) :
    ¬ (candName n k).head? = some '/' := by
  by_cases hk : k = 0
  · subst hk
    rw [candName_zero]
    exact head_ne_slash_of_not_mem n hn
  · rw [candName_succ n k hk]
    exact suffName_head_ne n hn k

theorem candName_injective (n : List Char) : Function.Injective (candName n) := by
  intro j k h
  by_cases hj : j = 0 <;> by_cases hk : k = 0
  · omega
  · exfalso
    subst hj
    rw [candName_zero, candName_succ n k hk] at h
    have hlen := congrArg List.length h
    have hlen2 := congrArg List.length (splitext_append n)
    simp [List.length_append] at hlen hlen2
    omega
  · exfalso
    subst hk
    rw [candName_zero, candName_succ n j hj] at h
    have hlen := congrArg List.length h
    have hlen2 := congrArg List.length (splitext_append n)
    simp [List.length_append] at hlen hlen2
    omega
  · rw [candName_succ n j hj, candName_succ n k hk] at h
    simp only [List.append_cancel_left_eq, List.cons_append, List.cons.injEq,
      List.append_cancel_right_eq, true_and] at h
    exact natToChars_injective h

theorem fullCand_injective (gp n : List Char) (hn : ¬ '/' ∈ n) :
    Function.Injective (fun k => pjoin gp (candName n k)) := by
  intro j k h
  exact candName_injective n
    (pjoin_right_inj gp _ _ (candName_head_ne n hn j) (candName_head_ne n hn k) h)

theorem le_length_of_all_mem (f : Nat → List Char) (hinj : Function.Injective f)
    (L : List (List Char)) (k : Nat) (h : ∀ j, j < k → f j ∈ L) : k ≤ L.length := by
  have hsub : (List.range k).map f ⊆ L := by
    intro x hx
    rcases List.mem_map.mp hx with ⟨j, hj, rfl⟩
    exact h j (List.mem_range.mp hj)
  have hnd : ((List.range k).map f).Nodup := List.Nodup.map hinj (List.nodup_range k)
  have := (hnd.subperm hsub).length_le
  simpa using this

theorem collisionLoop_spec (fs : FS) (gp gd n : List Char) :
    ∀ (k i fuel : Nat), k ≤ fuel →
    (∀ j, j < k → fs.pathExists (pjoin gp (candName n (i + j))) = true) →
    fs.pathExists (pjoin gp (candName n (i + k))) = false →
    collisionLoop fs gp gd (splitext n).1 (splitext n).2 fuel (i + 1)
      (pjoin gp (candName n i)) (pjoin gd (candName n i)) =
      some (pjoin gp (candName n (i + k)), pjoin gd (candName n (i + k))) := by
  intro k
  induction k with
  | zero =>
    intro i fuel _ _ hfree
    rw [collisionLoop.eq_def]
    dsimp only
    rw [if_neg (by simp only [Nat.add_zero] at hfree; simp [hfree])]
    simp
  | succ k ih =>
    intro i fuel hfuel hex hfree
    have h0 : fs.pathExists (pjoin gp (candName n i)) = true := by
      have := hex 0 (Nat.succ_pos k)
      simpa using this
    rw [collisionLoop.eq_def]
    dsimp only
    rw [if_pos h0]
    cases fuel with
    | zero => omega
    | succ f =>
      dsimp only
      have hname : (splitext n).1 ++ '_' :: natToChars (i + 1) ++ (splitext n).2 =
          candName n (i + 1) := (candName_succ n (i + 1) (Nat.succ_ne_zero i)).symm
      rw [hname]
      have hrec := ih (i + 1) f (by omega)
        (fun j hj => by
          have := hex (j + 1) (by omega)
          rwa [show i + (j + 1) = i + 1 + j by omega] at this)
        (by rwa [show i + (k + 1) = i + 1 + k by omega] at hfree)
      rw [show i + (k + 1) = i + 1 + k by omega]
      exact hrec

theorem generate_core (fs : FS) (gp gd n : List Char) (hn : ¬ '/' ∈ n) (k : Nat)
    (hex : ∀ j, j < k → fs.pathExists (pjoin gp (candName n j)) = true)
    (hfree : fs.pathExists (pjoin gp (candName n k)) = false) :
    collisionLoop fs gp gd (splitext n).1 (splitext n).2 (fs.files.length + 1) 1
      (pjoin gp n) (pjoin gd n) =
      some (pjoin gp (candName n k), pjoin gd (candName n k)) := by
  have hkle : k ≤ fs.files.length :=
    le_length_of_all_mem (fun j => pjoin gp (candName n j)) (fullCand_injective gp n hn)
      fs.files k (fun j hj => List.elem_iff.mp (hex j hj))
  have h0 := collisionLoop_spec fs gp gd n k 0 (fs.files.length + 1) (by omega)
    (fun j hj => by simpa using hex j hj) (by simpa using hfree)
  simp only [Nat.zero_add, candName_zero] at h0
  exact h0

theorem access_W_makedirs (fs : FS) (p q : List Char) :
    (fs.makedirs p).access_W q = fs.access_W q := by
  unfold FS.makedirs FS.access_W
  split <;> rfl

/-- Claim C2: when the group directory is writable, `generate_file_path`
returns the first candidate path that does not exist once the group
directory has been ensured: the normalized name itself, then `_1`, `_2`, …
inserted before the extension, starting at 1 and increasing by 1 with no
gaps (`candName` enumerates the candidates in exactly that order). -/
theorem generate_file_path_first_free (nfc : List Char → List Char) (fs : FS)
    (group_dir filename : List Char) (k : Nat)
    (hw : fs.access_W (pjoin UPLOAD_ROOT group_dir) = true)
    (hex : ∀ j, j < k →
      (fs.makedirs (pjoin UPLOAD_ROOT group_dir)).pathExists
        (pjoin (pjoin UPLOAD_ROOT group_dir)
          (candName (normalize_filename nfc filename) j)) = true)
    (hfree : (fs.makedirs (pjoin UPLOAD_ROOT group_dir)).pathExists
        (pjoin (pjoin UPLOAD_ROOT group_dir)
          (candName (normalize_filename nfc filename) k)) = false) :
    generate_file_path nfc fs group_dir filename =
      .ok (some (pjoin (pjoin UPLOAD_ROOT group_dir)
          (candName (normalize_filename nfc filename) k),
        pjoin group_dir (candName (normalize_filename nfc filename) k))) := by
  have hn : ¬ '/' ∈ normalize_filename nfc filename := sanitize_no_slash (nfc filename)
  have hcore := generate_core (fs.makedirs (pjoin UPLOAD_ROOT group_dir))
    (pjoin UPLOAD_ROOT group_dir) group_dir (normalize_filename nfc filename) hn k hex hfree
  simp only [generate_file_path]
  rw [if_neg (by rw [access_W_makedirs, hw]; simp), hcore]

/-- Witness for C2: with `report.pdf` present the resolver answers
`report_1.pdf`, and with `report_1.pdf` also present it answers
`report_2.pdf`. -/
theorem generate_file_path_first_free_witness :
    generate_file_path (fun s => s) ⟨["uploads/g/report.pdf".data], ["uploads/g".data]⟩
      ("g".data) ("report.pdf".data) =
      .ok (some ("uploads/g/report_1.pdf".data, "g/report_1.pdf".data)) ∧
    generate_file_path (fun s => s)
      ⟨["uploads/g/report.pdf".data, "uploads/g/report_1.pdf".data], ["uploads/g".data]⟩
      ("g".data) ("report.pdf".data) =
      .ok (some ("uploads/g/report_2.pdf".data, "g/report_2.pdf".data)) := by
  constructor
  · exact generate_file_path_first_free (fun s => s) _ ("g".data) ("report.pdf".data) 1
      (by decide) (by decide) (by decide)
  · exact generate_file_path_first_free (fun s => s) _ ("g".data) ("report.pdf".data) 2
      (by decide) (by decide) (by decide)

theorem pjoin_assoc_uploads (gd m : List Char) (hm : ¬ m.head? = some '/') :
    pjoin UPLOAD_ROOT (pjoin gd m) = pjoin (pjoin UPLOAD_ROOT gd) m := by
  cases gd with
  | nil =>
    have h1 : pjoin ([] : List Char) m = m := by
      rw [pjoin_of_flat _ _ hm (Or.inl rfl)]
      simp
    have h2 : pjoin UPLOAD_ROOT ([] : List Char) = "uploads/".data := by decide
    rw [h1, h2, pjoin_of_sep UPLOAD_ROOT m hm (by decide),
      pjoin_of_flat ("uploads/".data) m hm (by decide),
      show "uploads/".data = "uploads".data ++ ['/'] from by decide, List.append_assoc]
    rfl
  | cons c cs =>
    by_cases hc : c = '/'
    · subst hc
      have hh : ('/' :: cs).head? = some '/' := rfl
      rw [pjoin_of_head UPLOAD_ROOT _ hh]
      apply pjoin_of_head
      by_cases h2 : ('/' :: cs) = [] ∨ ('/' :: cs).getLast? = some '/'
      · rw [pjoin_of_flat _ _ hm h2]; rfl
      · rw [pjoin_of_sep _ _ hm h2]; rfl
    · have hhead : ¬ (c :: cs).head? = some '/' := by simp [hc]
      have hinner : pjoin UPLOAD_ROOT (c :: cs) = UPLOAD_ROOT ++ '/' :: c :: cs :=
        pjoin_of_sep _ _ hhead (by decide)
      rw [hinner]
      by_cases hlast : (c :: cs).getLast? = some '/'
      · have hL : pjoin (c :: cs) m = (c :: cs) ++ m := pjoin_of_flat _ _ hm (Or.inr hlast)
        have hR : pjoin (UPLOAD_ROOT ++ '/' :: c :: cs) m =
            (UPLOAD_ROOT ++ '/' :: c :: cs) ++ m := by
          apply pjoin_of_flat _ _ hm
          right
          rw [List.getLast?_append_of_ne_nil UPLOAD_ROOT (by simp),
            show ('/' :: c :: cs : List Char) = ['/'] ++ (c :: cs) from rfl,
            List.getLast?_append_of_ne_nil ['/'] (by simp)]
          exact hlast
        rw [hL, hR, pjoin_of_sep UPLOAD_ROOT _ (by simp [hc]) (by decide), List.append_assoc]
        rfl
      · have hL : pjoin (c :: cs) m = (c :: cs) ++ '/' :: m :=
          pjoin_of_sep _ _ hm (by simp [hlast])
        have hR : pjoin (UPLOAD_ROOT ++ '/' :: c :: cs) m =
            (UPLOAD_ROOT ++ '/' :: c :: cs) ++ '/' :: m := by
          apply pjoin_of_sep _ _ hm
          intro hor
          rcases hor with h | h
          · simp at h
          · rw [List.getLast?_append_of_ne_nil UPLOAD_ROOT (by simp),
              show ('/' :: c :: cs : List Char) = ['/'] ++ (c :: cs) from rfl,
              List.getLast?_append_of_ne_nil ['/'] (by simp)] at h
            exact hlast h
        rw [hL, hR, pjoin_of_sep UPLOAD_ROOT _ (by simp [hc]) (by decide), List.append_assoc]
        rfl

theorem pjoin_extends (gd m : List Char) (hm : ¬ m.head? = some '/') :
    ∃ rest, pjoin gd m = gd ++ rest := by
  by_cases h2 : gd = [] ∨ gd.getLast? = some '/'
  · exact ⟨m, pjoin_of_flat gd m hm h2⟩
  · exact ⟨'/' :: m, pjoin_of_sep gd m hm h2⟩

theorem collisionLoop_zero (fs : FS) (gp gd base ext : List Char)
    (counter : Nat) (full relp : List Char) :
    collisionLoop fs gp gd base ext 0 counter full relp =
      if fs.pathExists full = true then none else some (full, relp) := by
  rw [collisionLoop.eq_def]

theorem collisionLoop_succ (fs : FS) (gp gd base ext : List Char)
    (f counter : Nat) (full relp : List Char) :
    collisionLoop fs gp gd base ext (f + 1) counter full relp =
      if fs.pathExists full = true then
        collisionLoop fs gp gd base ext f (counter + 1)
          (pjoin gp (base ++ '_' :: natToChars counter ++ ext))
          (pjoin gd (base ++ '_' :: natToChars counter ++ ext))
      else some (full, relp) := by
  rw [collisionLoop.eq_def]

theorem collisionLoop_shape (fs : FS) (gp gd base ext : List Char)
    (hb : ∀ c : Nat, ¬ (base ++ '_' :: natToChars c ++ ext).head? = some '/') :
    ∀ (fuel counter : Nat) (name full rel : List Char), ¬ name.head? = some '/' →
    collisionLoop fs gp gd base ext fuel counter (pjoin gp name) (pjoin gd name) =
      some (full, rel) →
    ∃ m, ¬ m.head? = some '/' ∧ full = pjoin gp m ∧ rel = pjoin gd m := by
  intro fuel
  induction fuel with
  | zero =>
    intro counter name full rel hname h
    rw [collisionLoop_zero] at h
    by_cases hex : fs.pathExists (pjoin gp name) = true
    · rw [if_pos hex] at h
      simp at h
    · rw [if_neg hex] at h
      injection h with h2
      exact ⟨name, hname, (congrArg Prod.fst h2).symm, (congrArg Prod.snd h2).symm⟩
  | succ f ih =>
    intro counter name full rel hname h
    rw [collisionLoop_succ] at h
    by_cases hex : fs.pathExists (pjoin gp name) = true
    · rw [if_pos hex] at h
      exact ih (counter + 1) (base ++ '_' :: natToChars counter ++ ext) full rel
        (hb counter) h
    · rw [if_neg hex] at h
      injection h with h2
      exact ⟨name, hname, (congrArg Prod.fst h2).symm, (congrArg Prod.snd h2).symm⟩

/-- Claim C10: every pair returned by `generate_file_path` is consistent:
the full path is the upload root joined with the relative path, both paths
end in the same final filename, and the relative path extends the group
directory.  The property holds for the initial candidate and is preserved
by every iteration of the collision loop (`collisionLoop_shape`). -/
theorem generate_path_consistent (nfc : List Char → List Char) (fs : FS)
    (group_dir filename full rel : List Char)
    (h : generate_file_path nfc fs group_dir filename = .ok (some (full, rel))) :
    full = pjoin UPLOAD_ROOT rel ∧
    (∃ name, full = pjoin (pjoin UPLOAD_ROOT group_dir) name ∧
      rel = pjoin group_dir name) ∧
    (∃ rest, rel = group_dir ++ rest) := by
  simp only [generate_file_path] at h
  by_cases hw : (fs.makedirs (pjoin UPLOAD_ROOT group_dir)).access_W
      (pjoin UPLOAD_ROOT group_dir) = false
  · rw [if_pos hw] at h
    cases h
  · rw [if_neg hw] at h
    injection h with h1
    have hn : ¬ '/' ∈ normalize_filename nfc filename := sanitize_no_slash (nfc filename)
    obtain ⟨m, hm, hfull, hrel⟩ := collisionLoop_shape
      (fs.makedirs (pjoin UPLOAD_ROOT group_dir)) (pjoin UPLOAD_ROOT group_dir) group_dir
      (splitext (normalize_filename nfc filename)).1
      (splitext (normalize_filename nfc filename)).2
      (suffName_head_ne (normalize_filename nfc filename) hn)
      ((fs.makedirs (pjoin UPLOAD_ROOT group_dir)).files.length + 1) 1
      (normalize_filename nfc filename) full rel
      (head_ne_slash_of_not_mem _ hn) h1
    subst hfull
    subst hrel
    exact ⟨(pjoin_assoc_uploads group_dir m hm).symm, ⟨m, rfl, rfl⟩,
      pjoin_extends group_dir m hm⟩

/-- Witness for C10 at a concrete resolution. -/
theorem generate_path_consistent_witness :
    "uploads/g/a.pdf".data = pjoin UPLOAD_ROOT ("g/a.pdf".data) ∧
    (∃ name, "uploads/g/a.pdf".data = pjoin (pjoin UPLOAD_ROOT ("g".data)) name ∧
      "g/a.pdf".data = pjoin ("g".data) name) ∧
    (∃ rest, "g/a.pdf".data = "g".data ++ rest) :=
  generate_path_consistent (fun s => s) ⟨[], ["uploads/g".data]⟩ ("g".data) ("a.pdf".data)
    ("uploads/g/a.pdf".data) ("g/a.pdf".data) rfl

/-- When `os.makedirs` succeeds, the fallible resolver agrees with
`generate_file_path` (faults wrapped as `PyFault.http`). -/
theorem generate_file_path_io_agrees (nfc : List Char → List Char) (env : DirEnv)
    (fs : FS) (group_dir filename : List Char) (h : env.makedirsOk = true) :
    generate_file_path_io nfc env fs group_dir filename =
      match generate_file_path nfc fs group_dir filename with
      | .ok x => .ok x
      | .error e => .error (.http e) := by
  simp only [generate_file_path_io, generate_file_path]
  rw [if_neg (by simp [h])]
  by_cases hw : (fs.makedirs (pjoin UPLOAD_ROOT group_dir)).access_W
      (pjoin UPLOAD_ROOT group_dir) = false
  · rw [if_pos hw, if_pos hw]
  · rw [if_neg hw, if_neg hw]

/-- Counterexample to C8 as stated: when the group directory does not exist
and `os.makedirs` fails, the uncaught `OSError` — not the HTTP-500
writability fault — crosses the component boundary (`os.makedirs` at
file_handler.py:92 sits outside any try/except). -/
theorem storage_fault_policy_counterexample :
    generate_file_path_io (fun s => s) ⟨false⟩ ⟨[], []⟩ ("g".data) ("a.pdf".data) =
      .error .oserror ∧
    ∀ e : HTTPException,
      ¬ generate_file_path_io (fun s => s) ⟨false⟩ ⟨[], []⟩ ("g".data) ("a.pdf".data) =
        .error (.http e) := by
  constructor
  · rfl
  · intro e h
    rw [show generate_file_path_io (fun s => s) ⟨false⟩ ⟨[], []⟩ ("g".data) ("a.pdf".data)
        = Except.error PyFault.oserror from rfl] at h
    injection h with h2
    cases h2

/-- Claim C8, amended: provided the group directory exists or `os.makedirs`
succeeds in creating it, `generate_file_path` raises the structured
HTTP-500 fault exactly when the group directory is not writable, and that
fault is then the only exception-like one: every other failure of every
operation is reported as a boolean or absent sentinel (`save_uploaded_file`
and `cleanup_file` answer `false`, `get_file_stats` answers `none`).  When
the directory is absent and `os.makedirs` fails, an uncaught `OSError`
crosses the boundary instead. -/
theorem storage_fault_policy_amended (nfc : List Char → List Char) (env : DirEnv)
    (fs : FS) (group_dir filename : List Char) :
    (env.makedirsOk = true ∨ fs.pathExists (pjoin UPLOAD_ROOT group_dir) = true →
      (fs.access_W (pjoin UPLOAD_ROOT group_dir) = false →
        generate_file_path_io nfc env fs group_dir filename =
          .error (.http ⟨500, "存储目录无写入权限".data⟩)) ∧
      (fs.access_W (pjoin UPLOAD_ROOT group_dir) = true →
        ∀ f, ¬ generate_file_path_io nfc env fs group_dir filename = .error f)) ∧
    (env.makedirsOk = false → fs.pathExists (pjoin UPLOAD_ROOT group_dir) = false →
      generate_file_path_io nfc env fs group_dir filename = .error .oserror) ∧
    (∀ senv stream dest, (senv.makedirsOk && senv.openOk && senv.copyOk) = false →
      (save_uploaded_file senv stream dest).1 = false) ∧
    (∀ renv fs2 p, renv.removeOk = false → fs2.pathExists p = true →
      (cleanup_file renv fs2 p).1 = false) ∧
    (∀ senv fs2 stats p, senv.statOk = false →
      get_file_stats senv fs2 stats p = none) := by
  refine ⟨?_, ?_, ?_, ?_, ?_⟩
  · intro hmk
    have hcond : ¬ (fs.pathExists (pjoin UPLOAD_ROOT group_dir) = false ∧
        env.makedirsOk = false) := by
      rcases hmk with h | h
      · intro hc
        rw [h] at hc
        exact absurd hc.2 (by simp)
      · intro hc
        rw [h] at hc
        exact absurd hc.1 (by simp)
    constructor
    · intro hw
      simp only [generate_file_path_io]
      rw [if_neg hcond, if_pos (by rw [access_W_makedirs]; exact hw)]
    · intro hw f
      simp only [generate_file_path_io]
      rw [if_neg hcond, if_neg (by rw [access_W_makedirs, hw]; simp)]
      intro hcontra
      cases hcontra
  · intro hmk hgp
    simp only [generate_file_path_io]
    rw [if_pos ⟨hgp, hmk⟩]
  · intro senv stream dest h
    rcases senv with ⟨m, o, cp, fp⟩
    cases m <;> cases o <;> cases cp <;> simp_all [save_uploaded_file]
  · intro renv fs2 p h hex
    unfold cleanup_file
    rw [if_pos hex, if_neg (by simp [h])]
  · intro senv fs2 stats p h
    unfold get_file_stats
    by_cases hp : fs2.pathExists p = false
    · rw [if_pos hp]
    · rw [if_neg hp, if_neg (by simp [h])]

/-- Witness for the amended C8: with a succeeding `os.makedirs`, an
unwritable group directory raises the HTTP-500 fault, while a failing
stream copy is reported as a boolean `false`. -/
theorem storage_fault_policy_amended_witness :
    generate_file_path_io (fun s => s) ⟨true⟩ ⟨[], []⟩ ("g".data) ("a.pdf".data) =
      .error (.http ⟨500, "存储目录无写入权限".data⟩) ∧
    (save_uploaded_file ⟨true, true, false, 7⟩ ⟨3, 10⟩ []).1 = false :=
  ⟨((storage_fault_policy_amended (fun s => s) ⟨true⟩ ⟨[], []⟩ ("g".data)
      ("a.pdf".data)).1 (Or.inl rfl)).1 (by decide),
   (storage_fault_policy_amended (fun s => s) ⟨true⟩ ⟨[], []⟩ ("g".data)
      ("a.pdf".data)).2.2.1 ⟨true, true, false, 7⟩ ⟨3, 10⟩ [] (by decide)⟩
